import Mathlib

/-!
Verification of the staged log-file parsing pipeline (`src/file_parser.py`).

Files are modelled as lists of lines (`List String`); a line's on-disk byte
size is its length plus one for the terminating newline.  Python dicts keyed
by parser short name are modelled as association lists in insertion order,
Python sets as duplicate-free lists, and raised exceptions as `Except` /
`Option` results.
-/

/-- Python exception kinds that the modelled code can raise. -/
inductive PyErr where
  | assertionError
  | fileExistsError
  | indexError
  | stopIteration
  | otherError
  deriving DecidableEq, Repr

/-! ### Python string helpers (`str.strip`, `str.lower`, code-point order) -/

/-- Whitespace characters recognised by Python's default `str.strip`
(ASCII range): space, tab, newline, carriage return, vertical tab, form feed. -/
def isPySpace (c : Char) : Bool :=
  c == ' ' || c == '\t' || c == '\n' || c == '\r' || c == '\x0b' || c == '\x0c'

/-- Remove trailing whitespace characters from a character list. -/
def dropTrailingSpace (l : List Char) : List Char :=
  (l.reverse.dropWhile isPySpace).reverse

/-- Python `str.strip()`: removes whitespace from both ends of the string
(this is what `_parse_file_chunk` applies to unclaimed lines). -/
def pyStrip (s : String) : String :=
  ⟨dropTrailingSpace (s.data.dropWhile isPySpace)⟩

/-- Modelled from the spec: the spec's words say unclaimed lines are stored
"with trailing whitespace trimmed" only; this definition trims only the
trailing end, for comparison with the source's `pyStrip`. -/
def rstripOnly (s : String) : String :=
  ⟨dropTrailingSpace s.data⟩

/-- Python `str.lower()` restricted to ASCII case mapping, as a char list. -/
def pyLower (s : String) : List Char :=
  s.data.map Char.toLower

/-- Python `str.startswith('_')`. -/
def startsUnderscore (s : String) : Bool :=
  match s.data with
  | [] => false
  | c :: _ => c == '_'

/-- Lexicographic `≤` on character lists by code point, mirroring Python
string comparison. -/
def listCharLe : List Char → List Char → Bool
  | [], _ => true
  | _ :: _, [] => false
  | a :: as, b :: bs =>
    if a.toNat < b.toNat then true
    else if b.toNat < a.toNat then false
    else listCharLe as bs

/-! ### Splitter (`_split_file_into_chunks`) -/

/-- Byte size of one line on disk: its characters plus the newline. -/
def lineSize (l : String) : Nat := l.length + 1

/-- Total byte size of a file given as its list of lines
(`os.path.getsize`). -/
def totalSize (src : List String) : Nat := (src.map lineSize).sum

/-- Modelled from the spec: the `fsplit` library's `Filesplit.split` with
`newline=True` is not part of this repository; per the spec it produces
line-aligned chunks, closing a chunk once the target byte size is reached.
`cur` accumulates the current chunk's lines in reverse, `curSize` its size. -/
def fsplitGo (size : Nat) (cur : List String) (curSize : Nat) :
    List String → List (List String)
  | [] => if cur.isEmpty then [] else [cur.reverse]
  | l :: ls =>
    if curSize + lineSize l ≥ size then
      (l :: cur).reverse :: fsplitGo size [] 0 ls
    else
      fsplitGo size (l :: cur) (curSize + lineSize l) ls

/-- Modelled from the spec: line-aligned greedy split of a file into chunks
of at most (up to line alignment) `size` bytes. -/
def fsplitChunks (size : Nat) (src : List String) : List (List String) :=
  fsplitGo size [] 0 src

/-- `_split_file_into_chunks`: if the source file is larger than the chunk
byte size, split it with `Filesplit` and rename the pieces to
`chunk_<id>` with ids 1, 2, ...; otherwise copy the whole file as the
single chunk with id 1.  The result pairs each chunk id with the chunk's
lines, in ascending id order. -/
def split_file_into_chunks (chunkByteSize : Nat) (src : List String) :
    List (Nat × List String) :=
  if totalSize src > chunkByteSize then
    (fsplitChunks chunkByteSize src).enum.map (fun p => (p.1 + 1, p.2))
  else
    [(1, src)]

/-! ### Chunk parser (`_parse_file_chunk`) -/

/-- A record extracted from one line: a field-name to value mapping. -/
abbrev PyRecord := List (String × String)

/-- A log parser plugin: a short name and a `parse` operation; `none`
models raising `UnparsableLogError`. -/
structure LogParser where
  short_name : String
  parse : String → Option PyRecord

/-- The inner `for parser_name, parser in parsers.items(): ... break /
except UnparsableLogError: pass / else:` loop: the first parser whose
`parse` succeeds claims the line. -/
def tryParsers : List LogParser → String → Option (String × PyRecord)
  | [], _ => none
  | p :: ps, line =>
    match p.parse line with
    | some r => some (p.short_name, r)
    | none => tryParsers ps line

/-- One step of building a Python dict: an existing key keeps its position
and gets the new value, a new key is appended. -/
def dictInsert (ps : List LogParser) (p : LogParser) : List LogParser :=
  if ps.any (fun q => q.short_name == p.short_name) then
    ps.map (fun q => if q.short_name == p.short_name then p else q)
  else
    ps ++ [p]

/-- The dict comprehension `{p.short_name: p() for p in self.log_parsers}`
as an insertion-ordered association of parsers keyed by short name. -/
def pyDict (ps : List LogParser) : List LogParser :=
  ps.foldl dictInsert []

/-- Find the value stored under key `k` in an association list. -/
def lookupKey {α : Type} (k : String) : List (String × α) → Option α
  | [] => none
  | (k1, v) :: rest => if k1 = k then some v else lookupKey k rest

/-- `records_dict[parser_name].append(record)`: append `v` to the entry
with key `k` (no effect when the key is absent, mirroring that the key set
is fixed at initialization). -/
def appendAt (k : String) (v : PyRecord) :
    List (String × List PyRecord) → List (String × List PyRecord)
  | [] => []
  | (k1, vs) :: rest =>
    if k1 = k then (k1, vs ++ [v]) :: rest else (k1, vs) :: appendAt k v rest

/-- Python `set.update`: add the elements of `ks` not already present,
keeping first-insertion order as the canonical set representation. -/
def setUpdate (s : List String) (ks : List String) : List String :=
  ks.foldl (fun acc k => if k ∈ acc then acc else acc ++ [k]) s

/-- `keys_dict[parser_name].update(record)`: add the record's field names
to the key set stored under `k`. -/
def keysUpdateAt (k : String) (r : PyRecord) :
    List (String × List String) → List (String × List String)
  | [] => []
  | (k1, ks) :: rest =>
    if k1 = k then (k1, setUpdate ks (r.map Prod.fst)) :: rest
    else (k1, ks) :: keysUpdateAt k r rest

/-- The mutable state of `_parse_file_chunk`'s loop: per-parser records in
arrival order, per-parser key sets, and the unparsed lines in order. -/
structure ChunkState where
  records : List (String × List PyRecord)
  keys : List (String × List String)
  unparsed : List String
  deriving DecidableEq, Repr

/-- Initial loop state: one empty entry per parser in the dict. -/
def initChunkState (ps : List LogParser) : ChunkState :=
  ⟨ps.map (fun p => (p.short_name, [])),
   ps.map (fun p => (p.short_name, [])),
   []⟩

/-- The body of `for log_entry in file:`: the first successful parser claims
the line; if all signal `UnparsableLogError` the stripped line joins the
unparsed collection. -/
def processLine (ps : List LogParser) (st : ChunkState) (line : String) :
    ChunkState :=
  match tryParsers ps line with
  | some (n, r) =>
    { st with records := appendAt n r st.records,
              keys := keysUpdateAt n r st.keys }
  | none =>
    { st with unparsed := st.unparsed ++ [pyStrip line] }

/-- `_parse_file_chunk`: build the parser dict once, then fold the loop body
over the chunk's lines. -/
def parse_file_chunk (parsers : List LogParser) (lines : List String) :
    ChunkState :=
  lines.foldl (processLine (pyDict parsers)) (initChunkState (pyDict parsers))

/-- The record that the line contributes to the parser named `name`
(if the first claiming parser is that one). -/
def recordFor (ps : List LogParser) (name : String) (line : String) :
    Option PyRecord :=
  match tryParsers ps line with
  | some (n, r) => if n = name then some r else none
  | none => none

/-- Total number of records across all parsers in a records association. -/
def totalRecords (records : List (String × List PyRecord)) : Nat :=
  (records.map (fun p => p.2.length)).sum

/-! ### Schema unifier (`_get_final_table_headers`) -/

/-- Python `str.split('\n')` on a character list: the segments between
newline characters (an empty input gives one empty segment). -/
def splitOnNl : List Char → List (List Char)
  | [] => [[]]
  | c :: cs =>
    let r := splitOnNl cs
    if c = '\n' then [] :: r
    else
      match r with
      | [] => [[c]]
      | h :: t => (c :: h) :: t

/-- Reading one `.keys` file: `filter(None, contents.split('\n'))`. -/
def parseKeysContent (contents : String) : List String :=
  ((splitOnNl contents.data).map (fun cs => (⟨cs⟩ : String))).filter
    (fun k => k ≠ "")

/-- `unique_keys.update(keys)` folded over all of a parser's chunk `.keys`
files. -/
def uniqueKeysOf (files : List String) : List String :=
  files.foldl (fun acc c => setUpdate acc (parseKeysContent c)) []

/-- The sort key `'0' + x.lower() if x.startswith('_') else '1' + x.lower()`
as a character list. -/
def sortKeyOf (x : String) : List Char :=
  (if startsUnderscore x then '0' else '1') :: pyLower x

/-- The ordering relation induced by the sort key. -/
def keyRel (a b : String) : Prop :=
  listCharLe (sortKeyOf a) (sortKeyOf b) = true

instance : DecidableRel keyRel := fun _a _b =>
  inferInstanceAs (Decidable (_ = true))

/-- `_get_final_table_headers` for one parser: union of the key names read
from its chunk `.keys` files, sorted so that underscore-prefixed fields
come first, case-insensitively within each group. -/
def get_final_table_headers (files : List String) : List String :=
  List.insertionSort keyRel (uniqueKeysOf files)

/-- The ordering stated by the spec: fields starting with the user-field
underscore marker come before all others, case-insensitive alphabetical
(code-point order of the lowercased names) within each group. -/
def underscoreFirstLe (a b : String) : Prop :=
  (startsUnderscore a = true ∧ startsUnderscore b = false) ∨
  (startsUnderscore a = startsUnderscore b ∧
    listCharLe (pyLower a) (pyLower b) = true)

/-! ### Chunk file names (`get_sorted_chunk_names`, `FILE_CHUNK_SORT_MASK`) -/

/-- Strip an expected prefix from a character list, or fail. -/
def stripPre : List Char → List Char → Option (List Char)
  | [], rest => some rest
  | _ :: _, [] => none
  | p :: ps, c :: cs => if c = p then stripPre ps cs else none

/-- Digits-to-number conversion for a decimal digit list. -/
def digitsToNat (ds : List Char) : Nat :=
  ds.foldl (fun n c => n * 10 + (c.toNat - 48)) 0

/-- The regex `^chunk_(?P<id>\d+)(?:[.].*)?$`: the numeric id of a chunk
file name, or `none` when the name does not have the required form. -/
def chunkIdOf (name : String) : Option Nat :=
  match stripPre "chunk_".data name.data with
  | none => none
  | some rest =>
    let digits := rest.takeWhile Char.isDigit
    let remainder := rest.dropWhile Char.isDigit
    if digits.isEmpty then none
    else
      match remainder with
      | [] => some (digitsToNat digits)
      | c :: _ => if c = '.' then some (digitsToNat digits) else none

/-- The numeric sort key used by `get_sorted_chunk_names` (total only on
names that match the chunk mask; defaulted elsewhere). -/
def idOfD (name : String) : Nat := (chunkIdOf name).getD 0

/-- Ascending order on chunk file names by their numeric id. -/
def idLe (a b : String) : Prop := idOfD a ≤ idOfD b

instance : DecidableRel idLe := fun a b =>
  inferInstanceAs (Decidable (idOfD a ≤ idOfD b))

/-- The default mask `'.*'` matches every file name. -/
def maskAll : String → Bool := fun _ => true

/-- `get_sorted_chunk_names`: list the directory, keep names matching the
mask, and sort them by the integer id encoded in the name; a matching name
that does not have the `chunk_<digits>` form fails the assertion. -/
def get_sorted_chunk_names (mask : String → Bool) (files : List String) :
    Except PyErr (List String) :=
  let chunk_names := files.filter mask
  if chunk_names.all (fun n => (chunkIdOf n).isSome) then
    Except.ok (List.insertionSort idLe chunk_names)
  else
    Except.error PyErr.assertionError

/-! ### Merger (`_concatenate_tabularized_chunks`) -/

/-- The loop iterations with `table_idx > 1`: `next(table_file)` skips the
header line (raising `StopIteration` on an empty file), and the remaining
lines are appended. -/
def concatTails : List (List String) → Except PyErr (List String)
  | [] => Except.ok []
  | t :: ts =>
    match t with
    | [] => Except.error PyErr.stopIteration
    | _ :: tl =>
      match concatTails ts with
      | Except.error e => Except.error e
      | Except.ok r => Except.ok (tl ++ r)

/-- `_concatenate_tabularized_chunks` for one parser, given the chunk table
contents in ascending id order: indexing `chunk_tables_file_paths[0]`
raises `IndexError` on an empty list; otherwise the first table is copied
whole and each later table contributes all lines but its first. -/
def concatenate_tabularized_chunks (tables : List (List String)) :
    Except PyErr (List String) :=
  match tables with
  | [] => Except.error PyErr.indexError
  | t0 :: ts =>
    match concatTails ts with
    | Except.error e => Except.error e
    | Except.ok r => Except.ok (t0 ++ r)

/-! ### Orchestrator (`parse_file`, `_parse_file_main`,
`_create_temp_directory`) -/

/-- The filesystem facts `parse_file` consults: whether the source file
exists, whether the timestamp-derived default output directory exists, and
whether an explicit output directory was passed and whether it exists. -/
structure World where
  srcExists : Bool
  derivedOutDirExists : Bool
  explicitOutDir : Option Bool
  deriving DecidableEq, Repr

/-- Whether the directory `os.makedirs(output_dir_path)` will hit exists:
the explicit directory when one was passed, the derived one otherwise. -/
def outDirPreexists (w : World) : Bool :=
  match w.explicitOutDir with
  | some b => b
  | none => w.derivedOutDirExists

deriving instance DecidableEq for Except

/-- Outcome of `_parse_file_main` (and of the pipeline remainder passed to
it): the exception that escaped, if any, and the directories created. -/
structure MainResult where
  out : Except PyErr Unit
  created : List String
  deriving DecidableEq, Repr

/-- `_parse_file_main` up to its first side effect: `os.makedirs` on the
main output directory raises `FileExistsError` if it already exists and
creates it otherwise; `rest` stands for the remaining staged pipeline. -/
def parse_file_main (w : World) (rest : MainResult) : MainResult :=
  if outDirPreexists w then ⟨Except.error PyErr.fileExistsError, []⟩
  else ⟨rest.out, "output_dir" :: rest.created⟩

/-- What a finished `parse_file` call reports. -/
inductive RunOutcome where
  | completed
  | failedLogged (e : PyErr)
  deriving DecidableEq, Repr

/-- Result of `parse_file`: the value or exception given to the caller, the
directories created, and how many critical-level log messages were
emitted. -/
structure RunResult where
  out : Except PyErr RunOutcome
  created : List String
  criticalLogs : Nat
  deriving DecidableEq, Repr

/-- `parse_file`: assert the source exists and any explicit output directory
does not, then run `_parse_file_main` inside `try`; an escaping exception
is caught once, logged at critical level, and the call returns normally. -/
def parse_file (w : World) (rest : MainResult) : RunResult :=
  if w.srcExists = false then ⟨Except.error PyErr.assertionError, [], 0⟩
  else
    match w.explicitOutDir with
    | some true => ⟨Except.error PyErr.assertionError, [], 0⟩
    | _ =>
      let m := parse_file_main w rest
      match m.out with
      | Except.error e => ⟨Except.ok (RunOutcome.failedLogged e), m.created, 1⟩
      | Except.ok _ => ⟨Except.ok RunOutcome.completed, m.created, 0⟩

/-- Result of `_create_temp_directory`: the exception raised, if any, and
whether the directory was created. -/
structure TempDirResult where
  raised : Option PyErr
  created : Bool
  deriving DecidableEq, Repr

/-- `_create_temp_directory`: when the directory exists and `exist_ok` is
false the source builds `FileExistsError(...)` but never raises it, so the
call returns normally in every case; the directory is created only when it
did not exist. -/
def create_temp_directory (dirExists : Bool) (exist_ok : Bool) :
    TempDirResult :=
  if dirExists then
    if exist_ok = false then ⟨none, false⟩
    else ⟨none, false⟩
  else ⟨none, true⟩

/-! ### Concrete instances used to exercise the theorems -/

/-- A concrete parser claiming lines whose first character is `A`. -/
def parserA : LogParser :=
  ⟨"A", fun l =>
    match l.data with
    | 'A' :: _ => some [("a", l)]
    | _ => none⟩

/-- A concrete parser claiming every line except the literal `skip`. -/
def parserB : LogParser :=
  ⟨"B", fun l => if l = "skip" then none else some []⟩

/-- Concrete chunk-table contents keyed by chunk file name. -/
def tableW : String → List String :=
  fun f => if f = "chunk_1.tsv" then ["h", "a"] else ["h", "b"]

/-! ### Lemmas: splitter -/

lemma fsplitGo_flatten (size : Nat) :
    ∀ (ls : List String) (cur : List String) (n : Nat),
      (fsplitGo size cur n ls).flatten = cur.reverse ++ ls := by
  intro ls
  induction ls with
  | nil =>
    intro cur n
    cases cur with
    | nil => simp [fsplitGo]
    | cons c cs => simp [fsplitGo, List.isEmpty]
  | cons l ls ih =>
    intro cur n
    by_cases h : n + lineSize l ≥ size
    · simp only [fsplitGo, if_pos h, List.flatten_cons, ih]
      simp
    · simp only [fsplitGo, if_neg h, ih]
      simp

lemma fsplitChunks_flatten (size : Nat) (src : List String) :
    (fsplitChunks size src).flatten = src := by
  simpa using fsplitGo_flatten size src [] 0

lemma enum_shift_snd (l : List (List String)) :
    ((l.enum.map (fun p => (p.1 + 1, p.2))).map Prod.snd) = l := by
  rw [List.map_map]
  have h : (Prod.snd ∘ fun p : Nat × List String => (p.1 + 1, p.2)) =
      Prod.snd := rfl
  rw [h, List.enum_map_snd]

lemma enum_shift_fst (l : List (List String)) :
    ((l.enum.map (fun p => (p.1 + 1, p.2))).map Prod.fst) =
      List.range' 1 l.length := by
  rw [List.map_map]
  have h : (Prod.fst ∘ fun p : Nat × List String => (p.1 + 1, p.2)) =
      ((fun i => i + 1) ∘ Prod.fst) := rfl
  rw [h, ← List.map_map, List.enum_map_fst, List.range'_eq_map_range]
  exact List.map_congr_left (fun i _ => Nat.add_comm i 1)

/-- C1: for every source file and positive target chunk byte size,
concatenating the chunks produced by `_split_file_into_chunks` in ascending
chunk-id order reproduces the source's lines exactly; the ids are 1, 2, ...
in order, and a source no larger than the target size yields exactly the
single chunk `(1, src)`, a copy of the source file. -/
theorem c1_split_roundtrip (chunkByteSize : Nat) (src : List String)
    (_hpos : 0 < chunkByteSize) :
    ((split_file_into_chunks chunkByteSize src).map Prod.snd).flatten = src ∧
    (split_file_into_chunks chunkByteSize src).map Prod.fst =
      List.range' 1 (split_file_into_chunks chunkByteSize src).length ∧
    (totalSize src ≤ chunkByteSize →
      split_file_into_chunks chunkByteSize src = [(1, src)]) := by
  unfold split_file_into_chunks
  by_cases h : totalSize src > chunkByteSize
  · simp only [if_pos h]
    refine ⟨?_, ?_, ?_⟩
    · rw [enum_shift_snd, fsplitChunks_flatten]
    · rw [enum_shift_fst, List.length_map, List.enum_length]
    · intro hle
      exact absurd h (not_lt.mpr hle)
  · simp only [if_neg h]
    refine ⟨by simp, by simp, ?_⟩
    intro hle
    trivial

/-- Witness for C1 at chunk size 3 and a three-line file of 7 bytes. -/
theorem c1_split_roundtrip_witness :
    (0 < 3) ∧
    (((split_file_into_chunks 3 ["ab", "c", "d"]).map Prod.snd).flatten =
        ["ab", "c", "d"] ∧
      (split_file_into_chunks 3 ["ab", "c", "d"]).map Prod.fst =
        List.range' 1 (split_file_into_chunks 3 ["ab", "c", "d"]).length ∧
      (totalSize ["ab", "c", "d"] ≤ 3 →
        split_file_into_chunks 3 ["ab", "c", "d"] = [(1, ["ab", "c", "d"])])) :=
  ⟨by decide, c1_split_roundtrip 3 ["ab", "c", "d"] (by decide)⟩

/-! ### Lemmas: chunk parser loop -/

lemma appendAt_map_fst (k : String) (v : PyRecord) :
    ∀ l : List (String × List PyRecord),
      (appendAt k v l).map Prod.fst = l.map Prod.fst := by
  intro l
  induction l with
  | nil => rfl
  | cons kv rest ih =>
    obtain ⟨k1, vs⟩ := kv
    by_cases h : k1 = k
    · simp [appendAt, h]
    · simp [appendAt, h, ih]

lemma lookupKey_appendAt_self (k : String) (v : PyRecord) :
    ∀ l : List (String × List PyRecord),
      lookupKey k (appendAt k v l) =
        (lookupKey k l).map (fun vs => vs ++ [v]) := by
  intro l
  induction l with
  | nil => rfl
  | cons kv rest ih =>
    obtain ⟨k1, vs⟩ := kv
    by_cases h : k1 = k
    · simp [appendAt, lookupKey, h]
    · simp [appendAt, lookupKey, h, ih]

lemma lookupKey_appendAt_ne (k name : String) (v : PyRecord)
    (hne : name ≠ k) :
    ∀ l : List (String × List PyRecord),
      lookupKey name (appendAt k v l) = lookupKey name l := by
  intro l
  induction l with
  | nil => rfl
  | cons kv rest ih =>
    obtain ⟨k1, vs⟩ := kv
    rw [appendAt]
    by_cases h : k1 = k
    · rw [if_pos h, lookupKey, lookupKey, if_neg, if_neg]
      · intro hh
        exact hne (hh.symm.trans h)
      · intro hh
        exact hne (hh.symm.trans h)
    · rw [if_neg h, lookupKey, lookupKey]
      by_cases h2 : k1 = name
      · rw [if_pos h2, if_pos h2]
      · rw [if_neg h2, if_neg h2, ih]

lemma totalRecords_appendAt (k : String) (v : PyRecord) :
    ∀ l : List (String × List PyRecord), k ∈ l.map Prod.fst →
      totalRecords (appendAt k v l) = totalRecords l + 1 := by
  intro l
  induction l with
  | nil => intro h; cases h
  | cons kv rest ih =>
    obtain ⟨k1, vs⟩ := kv
    intro hmem
    rw [appendAt]
    by_cases h : k1 = k
    · rw [if_pos h]
      simp only [totalRecords, List.map_cons, List.sum_cons,
        List.length_append, List.length_cons, List.length_nil]
      omega
    · rw [if_neg h]
      simp only [List.map_cons] at hmem
      have hk : k ∈ rest.map Prod.fst := by
        rcases List.mem_cons.mp hmem with h1 | h1
        · exact absurd h1.symm h
        · exact h1
      have hrec := ih hk
      simp only [totalRecords, List.map_cons, List.sum_cons] at *
      omega

lemma tryParsers_name_mem (ps : List LogParser) (line : String)
    (n : String) (r : PyRecord) (h : tryParsers ps line = some (n, r)) :
    n ∈ ps.map LogParser.short_name := by
  induction ps with
  | nil => cases h
  | cons p rest ih =>
    rw [tryParsers] at h
    simp only [List.map_cons]
    cases hp : p.parse line with
    | some r0 =>
      rw [hp] at h
      injection h with h1
      injection h1 with h2 h3
      subst h2
      exact List.mem_cons_self _ _
    | none =>
      rw [hp] at h
      exact List.mem_cons_of_mem _ (ih h)

lemma tryParsers_first (ps1 : List LogParser) (p : LogParser)
    (ps2 : List LogParser) (line : String) (r : PyRecord)
    (h1 : ∀ q ∈ ps1, q.parse line = none) (h2 : p.parse line = some r) :
    tryParsers (ps1 ++ p :: ps2) line = some (p.short_name, r) := by
  induction ps1 with
  | nil => simp [tryParsers, h2]
  | cons q rest ih =>
    have hq : q.parse line = none := h1 q (List.mem_cons_self q rest)
    rw [List.cons_append, tryParsers, hq]
    exact ih (fun q1 hq1 => h1 q1 (List.mem_cons_of_mem q hq1))

lemma foldl_dictInsert_of_nodup :
    ∀ (ps acc : List LogParser),
      ((acc ++ ps).map LogParser.short_name).Nodup →
      ps.foldl dictInsert acc = acc ++ ps := by
  intro ps
  induction ps with
  | nil => intro acc _; simp
  | cons p rest ih =>
    intro acc h
    have hnotin : p.short_name ∉ acc.map LogParser.short_name := by
      rw [List.map_append, List.nodup_append] at h
      intro hmem
      exact h.2.2 hmem (by simp)
    have hins : dictInsert acc p = acc ++ [p] := by
      rw [dictInsert, if_neg]
      simp only [List.any_eq_true, beq_iff_eq, not_exists, not_and]
      intro q hq hname
      exact hnotin (List.mem_map.mpr ⟨q, hq, hname⟩)
    rw [List.foldl_cons, hins, ih (acc ++ [p]) (by simpa using h)]
    simp

lemma pyDict_eq_self (ps : List LogParser)
    (h : (ps.map LogParser.short_name).Nodup) : pyDict ps = ps := by
  have := foldl_dictInsert_of_nodup ps [] (by simpa using h)
  simpa [pyDict] using this

lemma foldl_processLine_unparsed (ps : List LogParser) :
    ∀ (lines : List String) (st : ChunkState),
      (lines.foldl (processLine ps) st).unparsed =
        st.unparsed ++
          (lines.filter (fun l => (tryParsers ps l).isNone)).map pyStrip := by
  intro lines
  induction lines with
  | nil => intro st; simp
  | cons l ls ih =>
    intro st
    rw [List.foldl_cons, ih]
    cases h : tryParsers ps l with
    | none =>
      simp [processLine, h, List.filter_cons]
    | some nr =>
      obtain ⟨n, r⟩ := nr
      simp [processLine, h, List.filter_cons]

lemma foldl_processLine_records_fst (ps : List LogParser) :
    ∀ (lines : List String) (st : ChunkState),
      ((lines.foldl (processLine ps) st).records).map Prod.fst =
        st.records.map Prod.fst := by
  intro lines
  induction lines with
  | nil => intro st; rfl
  | cons l ls ih =>
    intro st
    rw [List.foldl_cons, ih]
    cases h : tryParsers ps l with
    | none => simp [processLine, h]
    | some nr =>
      obtain ⟨n, r⟩ := nr
      simp [processLine, h, appendAt_map_fst]

lemma foldl_processLine_lookup (ps : List LogParser) (name : String) :
    ∀ (lines : List String) (st : ChunkState),
      lookupKey name (lines.foldl (processLine ps) st).records =
        (lookupKey name st.records).map
          (fun vs => vs ++ lines.filterMap (recordFor ps name)) := by
  intro lines
  induction lines with
  | nil =>
    intro st
    cases hl : lookupKey name st.records <;> simp [hl]
  | cons l ls ih =>
    intro st
    rw [List.foldl_cons, ih]
    cases h : tryParsers ps l with
    | none =>
      have hrf : recordFor ps name l = none := by
        rw [recordFor, h]
      simp [processLine, h, List.filterMap_cons, hrf]
    | some nr =>
      obtain ⟨n, r⟩ := nr
      by_cases hn : n = name
      · subst hn
        have hrf : recordFor ps n l = some r := by
          simp [recordFor, h]
        simp only [processLine, h, List.filterMap_cons, hrf,
          lookupKey_appendAt_self]
        cases hl : lookupKey n st.records <;> simp [hl]
      · have hrf : recordFor ps name l = none := by
          simp [recordFor, h, hn]
        have hne : name ≠ n := fun hh => hn hh.symm
        simp only [processLine, h, List.filterMap_cons, hrf,
          lookupKey_appendAt_ne n name r hne]

lemma foldl_processLine_totalRecords (ps : List LogParser) :
    ∀ (lines : List String) (st : ChunkState),
      (∀ n r line, tryParsers ps line = some (n, r) →
        n ∈ st.records.map Prod.fst) →
      totalRecords (lines.foldl (processLine ps) st).records =
        totalRecords st.records +
          lines.countP (fun l => (tryParsers ps l).isSome) := by
  intro lines
  induction lines with
  | nil => intro st _; simp
  | cons l ls ih =>
    intro st hinv
    rw [List.foldl_cons]
    cases h : tryParsers ps l with
    | none =>
      rw [ih _ (by
        intro n r line hl
        have := hinv n r line hl
        simpa [processLine, h] using this)]
      simp [processLine, h, List.countP_cons]
    | some nr =>
      obtain ⟨n, r⟩ := nr
      rw [ih _ (by
        intro n1 r1 line hl
        have := hinv n1 r1 line hl
        simpa [processLine, h, appendAt_map_fst] using this)]
      have hmem : n ∈ st.records.map Prod.fst := hinv n r l h
      simp only [processLine, h]
      rw [totalRecords_appendAt n r st.records hmem]
      rw [List.countP_cons]
      simp [h]
      omega

lemma lookupKey_initChunkState (ps : List LogParser) (name : String)
    (h : name ∈ ps.map LogParser.short_name) :
    lookupKey name (initChunkState ps).records = some [] := by
  induction ps with
  | nil => cases h
  | cons p rest ih =>
    simp only [initChunkState, List.map_cons, lookupKey]
    by_cases hp : p.short_name = name
    · rw [if_pos hp]
    · rw [if_neg hp]
      simp only [List.map_cons] at h
      rcases List.mem_cons.mp h with h1 | h1
      · exact absurd h1.symm hp
      · simpa [initChunkState] using ih h1

lemma totalRecords_initChunkState (ps : List LogParser) :
    totalRecords (initChunkState ps).records = 0 := by
  rw [totalRecords, initChunkState]
  rw [List.map_map]
  exact List.sum_eq_zero (by
    intro x hx
    rcases List.mem_map.mp hx with ⟨p, _, hp⟩
    simpa using hp.symm)

/-- C2: in `_parse_file_chunk` each line has exactly one outcome: it is
claimed by the first parser in configured order whose parse does not
signal the unparsable condition (later parsers are not consulted), or,
when every parser signals unparsable, it is appended (stripped) to the
unparsed collection; hence records across all parsers plus unparsed lines
equal the chunk's line count.  Parser short names are assumed distinct, as
the dict `{p.short_name: p()}` collapses duplicates. -/
theorem c2_first_match_and_conservation (parsers : List LogParser)
    (lines : List String)
    (h : (parsers.map LogParser.short_name).Nodup) :
    (∀ (line : String) (ps1 : List LogParser) (p : LogParser)
        (ps2 : List LogParser) (r : PyRecord),
      parsers = ps1 ++ p :: ps2 → (∀ q ∈ ps1, q.parse line = none) →
      p.parse line = some r →
      tryParsers parsers line = some (p.short_name, r)) ∧
    (∀ p ∈ parsers,
      lookupKey p.short_name (parse_file_chunk parsers lines).records =
        some (lines.filterMap (recordFor parsers p.short_name))) ∧
    (parse_file_chunk parsers lines).unparsed =
      (lines.filter (fun l => (tryParsers parsers l).isNone)).map pyStrip ∧
    totalRecords (parse_file_chunk parsers lines).records +
      (parse_file_chunk parsers lines).unparsed.length = lines.length := by
  have hdict : pyDict parsers = parsers := pyDict_eq_self parsers h
  refine ⟨?_, ?_, ?_, ?_⟩
  · intro line ps1 p ps2 r hsplit h1 h2
    rw [hsplit]
    exact tryParsers_first ps1 p ps2 line r h1 h2
  · intro p hp
    rw [parse_file_chunk, hdict, foldl_processLine_lookup,
      lookupKey_initChunkState parsers p.short_name
        (List.mem_map.mpr ⟨p, hp, rfl⟩)]
    simp
  · rw [parse_file_chunk, hdict, foldl_processLine_unparsed]
    simp [initChunkState]
  · rw [parse_file_chunk, hdict, foldl_processLine_unparsed,
      foldl_processLine_totalRecords parsers lines (initChunkState parsers)
        (by
          intro n r line hl
          have hm := tryParsers_name_mem parsers line n r hl
          simpa [initChunkState, List.map_map, Function.comp] using hm),
      totalRecords_initChunkState]
    simp only [initChunkState, List.nil_append, Nat.zero_add,
      List.length_map]
    rw [← List.countP_eq_length_filter]
    rw [List.length_eq_countP_add_countP
      (fun l => (tryParsers parsers l).isSome) lines]
    congr 1
    apply List.countP_congr
    intro l _
    cases hx : tryParsers parsers l <;> simp [hx]

/-- Witness for C2 with two concrete parsers and a three-line chunk. -/
theorem c2_first_match_and_conservation_witness :
    ((["A", "B"] : List String).Nodup) ∧
    (lookupKey "A" (parse_file_chunk [parserA, parserB]
        ["Ax", "skip", "zz"]).records = some [[("a", "Ax")]] ∧
      (parse_file_chunk [parserA, parserB] ["Ax", "skip", "zz"]).unparsed =
        ["skip"] ∧
      totalRecords (parse_file_chunk [parserA, parserB]
          ["Ax", "skip", "zz"]).records +
        (parse_file_chunk [parserA, parserB]
          ["Ax", "skip", "zz"]).unparsed.length = 3) := by
  have hmain := c2_first_match_and_conservation [parserA, parserB]
    ["Ax", "skip", "zz"] (by simp [parserA, parserB])
  refine ⟨by simp, ?_, ?_, ?_⟩
  · have h1 := hmain.2.1 parserA (by simp)
    exact h1.trans (by decide)
  · exact hmain.2.2.1.trans (by decide)
  · rw [hmain.2.2.2]
    rfl

/-! ### Lemmas: stripping -/

lemma mem_takeWhile_space :
    ∀ (l : List Char) (c : Char), c ∈ l.takeWhile isPySpace →
      isPySpace c = true := by
  intro l
  induction l with
  | nil => intro c h; cases h
  | cons a rest ih =>
    intro c h
    rw [List.takeWhile_cons] at h
    by_cases ha : isPySpace a = true
    · rw [if_pos ha] at h
      rcases List.mem_cons.mp h with h1 | h1
      · exact h1 ▸ ha
      · exact ih c h1
    · rw [if_neg (by simpa using ha)] at h
      cases h

lemma head?_dropWhile_space :
    ∀ (l : List Char) (c : Char), (l.dropWhile isPySpace).head? = some c →
      isPySpace c = false := by
  intro l
  induction l with
  | nil => intro c h; cases h
  | cons a rest ih =>
    intro c h
    rw [List.dropWhile_cons] at h
    by_cases ha : isPySpace a = true
    · rw [if_pos ha] at h
      exact ih c h
    · rw [if_neg (by simpa using ha)] at h
      injection h with h1
      subst h1
      simpa using ha

lemma pyStrip_decomposition (s : String) :
    ∃ pre suf : List Char,
      s.data = pre ++ (pyStrip s).data ++ suf ∧
      (∀ c ∈ pre, isPySpace c = true) ∧
      (∀ c ∈ suf, isPySpace c = true) ∧
      (∀ c, (pyStrip s).data.head? = some c → isPySpace c = false) ∧
      (∀ c, (pyStrip s).data.getLast? = some c → isPySpace c = false) := by
  set m := s.data.dropWhile isPySpace with hm
  refine ⟨s.data.takeWhile isPySpace, (m.reverse.takeWhile isPySpace).reverse,
    ?_, ?_, ?_, ?_, ?_⟩
  · have h1 : (pyStrip s).data = dropTrailingSpace m := rfl
    rw [h1, dropTrailingSpace]
    have h2 : (m.reverse.dropWhile isPySpace).reverse ++
        (m.reverse.takeWhile isPySpace).reverse = m := by
      rw [← List.reverse_append, List.takeWhile_append_dropWhile,
        List.reverse_reverse]
    rw [List.append_assoc, h2, hm, List.takeWhile_append_dropWhile]
  · intro c hc
    exact mem_takeWhile_space s.data c hc
  · intro c hc
    exact mem_takeWhile_space m.reverse c (List.mem_reverse.mp hc)
  · intro c hc
    have h1 : (pyStrip s).data = (m.reverse.dropWhile isPySpace).reverse :=
      rfl
    have h2 : (pyStrip s).data ++ (m.reverse.takeWhile isPySpace).reverse =
        m := by
      rw [h1, ← List.reverse_append, List.takeWhile_append_dropWhile,
        List.reverse_reverse]
    have hhead : m.head? = some c := by
      rw [← h2]
      cases hd : (pyStrip s).data with
      | nil => rw [hd] at hc; cases hc
      | cons a t =>
        rw [hd] at hc
        injection hc with h3
        subst h3
        rfl
    exact head?_dropWhile_space s.data c (hm ▸ hhead)
  · intro c hc
    have h1 : (pyStrip s).data.reverse = m.reverse.dropWhile isPySpace := by
      have : (pyStrip s).data = (m.reverse.dropWhile isPySpace).reverse :=
        rfl
      rw [this, List.reverse_reverse]
    rw [List.getLast?_eq_head?_reverse, h1] at hc
    exact head?_dropWhile_space m.reverse c hc

/-- C5 counterexample: the line `"  x "` is unclaimed (no parsers), and the
unparsed collection stores `"x"`: Python `str.strip()` also removed the
leading whitespace, contradicting the claim that only trailing whitespace
is trimmed (which would store `rstripOnly "  x " = "  x"`). -/
theorem c5_strip_counterexample :
    (parse_file_chunk [] ["  x "]).unparsed = ["x"] ∧
    rstripOnly "  x " = "  x" ∧
    (parse_file_chunk [] ["  x "]).unparsed ≠ [rstripOnly "  x "] := by
  refine ⟨rfl, rfl, ?_⟩
  decide

/-- C5 amended: every line claimed by no parser is appended to the chunk's
unparsed collection with both leading and trailing whitespace trimmed
(Python `str.strip()`), the kept interior characters unchanged, and the
unparsed lines appear in their original relative order within the chunk. -/
theorem c5_unparsed_stripped_in_order (parsers : List LogParser)
    (lines : List String) :
    (parse_file_chunk parsers lines).unparsed =
      (lines.filter
        (fun l => (tryParsers (pyDict parsers) l).isNone)).map pyStrip ∧
    (∀ l : String, ∃ pre suf : List Char,
      l.data = pre ++ (pyStrip l).data ++ suf ∧
      (∀ c ∈ pre, isPySpace c = true) ∧
      (∀ c ∈ suf, isPySpace c = true) ∧
      (∀ c, (pyStrip l).data.head? = some c → isPySpace c = false) ∧
      (∀ c, (pyStrip l).data.getLast? = some c → isPySpace c = false)) := by
  constructor
  · rw [parse_file_chunk, foldl_processLine_unparsed]
    simp [initChunkState]
  · intro l
    exact pyStrip_decomposition l

/-! ### Lemmas: schema unifier -/

lemma mem_setUpdate (x : String) :
    ∀ (ks s : List String), x ∈ setUpdate s ks ↔ x ∈ s ∨ x ∈ ks := by
  intro ks
  induction ks with
  | nil => intro s; simp [setUpdate]
  | cons k rest ih =>
    intro s
    rw [setUpdate, List.foldl_cons]
    have hstep : x ∈ (if k ∈ s then s else s ++ [k]) ↔ x ∈ s ∨ x = k := by
      by_cases hk : k ∈ s
      · rw [if_pos hk]
        constructor
        · exact fun h => Or.inl h
        · rintro (h | h)
          · exact h
          · exact h ▸ hk
      · rw [if_neg hk]
        simp
    have := ih (if k ∈ s then s else s ++ [k])
    rw [setUpdate] at this
    rw [this, hstep, List.mem_cons]
    tauto

lemma nodup_setUpdate :
    ∀ (ks s : List String), s.Nodup → (setUpdate s ks).Nodup := by
  intro ks
  induction ks with
  | nil => intro s h; simpa [setUpdate] using h
  | cons k rest ih =>
    intro s h
    rw [setUpdate, List.foldl_cons]
    have hstep : (if k ∈ s then s else s ++ [k]).Nodup := by
      by_cases hk : k ∈ s
      · rw [if_pos hk]; exact h
      · rw [if_neg hk]
        simp [List.nodup_append, h, hk]
    have := ih (if k ∈ s then s else s ++ [k]) hstep
    rw [setUpdate] at this
    exact this

lemma mem_uniqueKeysOf_general (x : String) :
    ∀ (files : List String) (acc : List String),
      x ∈ files.foldl (fun s c => setUpdate s (parseKeysContent c)) acc ↔
        x ∈ acc ∨ ∃ c ∈ files, x ∈ parseKeysContent c := by
  intro files
  induction files with
  | nil => intro acc; simp
  | cons f rest ih =>
    intro acc
    rw [List.foldl_cons, ih, mem_setUpdate]
    constructor
    · rintro ((h | h) | ⟨c, hc, hx⟩)
      · exact Or.inl h
      · exact Or.inr ⟨f, List.mem_cons_self f rest, h⟩
      · exact Or.inr ⟨c, List.mem_cons_of_mem f hc, hx⟩
    · rintro (h | ⟨c, hc, hx⟩)
      · exact Or.inl (Or.inl h)
      · rcases List.mem_cons.mp hc with h1 | h1
        · exact Or.inl (Or.inr (h1 ▸ hx))
        · exact Or.inr ⟨c, h1, hx⟩

lemma mem_uniqueKeysOf (files : List String) (x : String) :
    x ∈ uniqueKeysOf files ↔ ∃ c ∈ files, x ∈ parseKeysContent c := by
  rw [uniqueKeysOf, mem_uniqueKeysOf_general]
  simp

lemma nodup_uniqueKeysOf (files : List String) :
    (uniqueKeysOf files).Nodup := by
  rw [uniqueKeysOf]
  suffices h : ∀ (fs acc : List String), acc.Nodup →
      (fs.foldl (fun s c => setUpdate s (parseKeysContent c)) acc).Nodup by
    exact h files [] List.nodup_nil
  intro fs
  induction fs with
  | nil => intro acc h; simpa using h
  | cons f rest ih =>
    intro acc h
    rw [List.foldl_cons]
    exact ih _ (nodup_setUpdate (parseKeysContent f) acc h)

lemma listCharLe_cons_lt {c d : Char} (h : c.toNat < d.toNat)
    (l m : List Char) : listCharLe (c :: l) (d :: m) = true := by
  rw [listCharLe, if_pos h]

lemma listCharLe_cons_gt {c d : Char} (h : d.toNat < c.toNat)
    (l m : List Char) : listCharLe (c :: l) (d :: m) = false := by
  rw [listCharLe, if_neg (Nat.lt_asymm h), if_pos h]

lemma listCharLe_cons_of_eq {c d : Char} (h : c.toNat = d.toNat)
    (l m : List Char) : listCharLe (c :: l) (d :: m) = listCharLe l m := by
  rw [listCharLe, if_neg (by omega), if_neg (by omega)]

lemma listCharLe_total : ∀ l m : List Char,
    listCharLe l m = true ∨ listCharLe m l = true := by
  intro l
  induction l with
  | nil => intro m; left; rfl
  | cons a as ih =>
    intro m
    cases m with
    | nil => right; rfl
    | cons b bs =>
      rcases Nat.lt_trichotomy a.toNat b.toNat with h | h | h
      · exact Or.inl (listCharLe_cons_lt h as bs)
      · rcases ih bs with h1 | h1
        · exact Or.inl ((listCharLe_cons_of_eq h as bs).trans h1)
        · exact Or.inr ((listCharLe_cons_of_eq h.symm bs as).trans h1)
      · exact Or.inr (listCharLe_cons_lt h bs as)

lemma listCharLe_trans : ∀ l m n : List Char,
    listCharLe l m = true → listCharLe m n = true →
    listCharLe l n = true := by
  intro l
  induction l with
  | nil => intro m n _ _; rfl
  | cons a as ih =>
    intro m n h1 h2
    cases m with
    | nil => rw [listCharLe] at h1; cases h1
    | cons b bs =>
      cases n with
      | nil => rw [listCharLe] at h2; cases h2
      | cons c cs =>
        rcases Nat.lt_trichotomy a.toNat b.toNat with hab | hab | hab
        · rcases Nat.lt_trichotomy b.toNat c.toNat with hbc | hbc | hbc
          · exact listCharLe_cons_lt (Nat.lt_trans hab hbc) as cs
          · exact listCharLe_cons_lt (by omega) as cs
          · rw [listCharLe_cons_gt hbc bs cs] at h2; cases h2
        · rw [listCharLe_cons_of_eq hab as bs] at h1
          rcases Nat.lt_trichotomy b.toNat c.toNat with hbc | hbc | hbc
          · exact listCharLe_cons_lt (by omega) as cs
          · rw [listCharLe_cons_of_eq hbc bs cs] at h2
            rw [listCharLe_cons_of_eq (hab.trans hbc) as cs]
            exact ih bs cs h1 h2
          · rw [listCharLe_cons_gt hbc bs cs] at h2; cases h2
        · rw [listCharLe_cons_gt hab as bs] at h1; cases h1

instance : IsTotal String keyRel :=
  ⟨fun a b => listCharLe_total (sortKeyOf a) (sortKeyOf b)⟩

instance : IsTrans String keyRel :=
  ⟨fun _a _b _c h1 h2 => listCharLe_trans _ _ _ h1 h2⟩

lemma keyRel_imp_underscoreFirstLe (a b : String) (h : keyRel a b) :
    underscoreFirstLe a b := by
  rw [keyRel, sortKeyOf, sortKeyOf] at h
  cases ha : startsUnderscore a <;> cases hb : startsUnderscore b <;>
    rw [ha, hb] at h <;> rw [listCharLe] at h
  · exact Or.inr ⟨ha.trans hb.symm, by simpa using h⟩
  · simp at h
  · exact Or.inl ⟨ha, hb⟩
  · exact Or.inr ⟨ha.trans hb.symm, by simpa using h⟩

/-- C4: for each parser, `_get_final_table_headers` returns exactly the
union of the field names read from its per-chunk key files, without
duplicates, ordered with underscore-prefixed names before all others and
case-insensitively within each group; on the key set
`{"b", "_z", "A", "_a"}` it returns `["_a", "_z", "A", "b"]`. -/
theorem c4_headers_union_and_sorted (files : List String) :
    (∀ k, k ∈ get_final_table_headers files ↔
      ∃ c ∈ files, k ∈ parseKeysContent c) ∧
    (get_final_table_headers files).Nodup ∧
    (get_final_table_headers files).Pairwise underscoreFirstLe ∧
    get_final_table_headers ["b\n_z\nA\n_a"] = ["_a", "_z", "A", "b"] := by
  refine ⟨?_, ?_, ?_, ?_⟩
  · intro k
    rw [get_final_table_headers,
      (List.perm_insertionSort keyRel (uniqueKeysOf files)).mem_iff]
    exact mem_uniqueKeysOf files k
  · rw [get_final_table_headers]
    exact (List.perm_insertionSort keyRel
      (uniqueKeysOf files)).nodup_iff.mpr (nodup_uniqueKeysOf files)
  · exact List.Pairwise.imp
      (fun hab => keyRel_imp_underscoreFirstLe _ _ hab)
      (List.sorted_insertionSort keyRel (uniqueKeysOf files))
  · decide

/-! ### Lemmas: chunk names and merge -/

instance : IsTotal String idLe := ⟨fun a b => Nat.le_total (idOfD a) (idOfD b)⟩

instance : IsTrans String idLe := ⟨fun _a _b _c h1 h2 => Nat.le_trans h1 h2⟩

lemma filter_maskAll (l : List String) : l.filter maskAll = l := by
  simp [maskAll]

lemma concatTails_ok :
    ∀ ts : List (List String), (∀ t ∈ ts, t ≠ []) →
      concatTails ts = Except.ok ((ts.map List.tail).flatten) := by
  intro ts
  induction ts with
  | nil => intro _; rfl
  | cons t rest ih =>
    intro h
    cases ht : t with
    | nil => exact absurd ht (h t (List.mem_cons_self t rest))
    | cons a tl =>
      rw [concatTails, ih (fun u hu => h u (List.mem_cons_of_mem t hu))]
      simp [ht]

/-- C10: `get_sorted_chunk_names` asserts that every listed name matching
the mask has the `chunk_<digits>` form (optionally followed by a dot and
suffix) and returns the matching names sorted by the encoded integer id;
any other file, such as the split library's `fs_manifest.csv`, makes it
fail with an `AssertionError`; sorting is numeric, not lexicographic. -/
theorem c10_chunk_name_sorting (mask : String → Bool)
    (files : List String) :
    ((∀ f ∈ files.filter mask, (chunkIdOf f).isSome = true) →
      ∃ l, get_sorted_chunk_names mask files = Except.ok l ∧
        l.Perm (files.filter mask) ∧ l.Sorted idLe) ∧
    ((∃ f ∈ files.filter mask, chunkIdOf f = none) →
      get_sorted_chunk_names mask files =
        Except.error PyErr.assertionError) ∧
    chunkIdOf "fs_manifest.csv" = none ∧
    get_sorted_chunk_names maskAll ["chunk_10.tsv", "fs_manifest.csv"] =
      Except.error PyErr.assertionError ∧
    get_sorted_chunk_names maskAll ["chunk_10.tsv", "chunk_2.tsv"] =
      Except.ok ["chunk_2.tsv", "chunk_10.tsv"] := by
  refine ⟨?_, ?_, by decide, by decide, by decide⟩
  · intro hall
    rw [get_sorted_chunk_names, if_pos (List.all_eq_true.mpr hall)]
    exact ⟨List.insertionSort idLe (files.filter mask), rfl,
      List.perm_insertionSort idLe (files.filter mask),
      List.sorted_insertionSort idLe (files.filter mask)⟩
  · rintro ⟨f, hf, hnone⟩
    rw [get_sorted_chunk_names, if_neg]
    intro hcond
    have := List.all_eq_true.mp hcond f hf
    rw [hnone] at this
    cases this

/-- Witness for C10 on a directory listing sorted numerically. -/
theorem c10_chunk_name_sorting_witness :
    ∃ l, get_sorted_chunk_names maskAll ["chunk_3.log", "chunk_1.log"] =
        Except.ok l ∧
      l.Perm ((["chunk_3.log", "chunk_1.log"] : List String).filter
        maskAll) ∧
      l.Sorted idLe :=
  (c10_chunk_name_sorting maskAll ["chunk_3.log", "chunk_1.log"]).1
    (by decide)

/-- C3: for a parser with at least one chunk table, the merge first sorts
the chunk tables in ascending numeric id order (by the integer encoded in
the file name, not lexicographically), then emits every line of the first
table and all lines except the first (header) line of each subsequent
table, so the merged table contains exactly one header row. -/
theorem c3_merge_single_header (files : List String)
    (content : String → List String) (hdr : String)
    (h1 : files ≠ [])
    (h2 : ∀ f ∈ files, (chunkIdOf f).isSome = true)
    (h3 : ∀ f ∈ files, (content f).head? = some hdr)
    (h4 : ∀ f ∈ files, hdr ∉ (content f).drop 1) :
    ∃ names, get_sorted_chunk_names maskAll files = Except.ok names ∧
      names.Perm files ∧ names.Sorted idLe ∧ names ≠ [] ∧
      concatenate_tabularized_chunks (names.map content) =
        Except.ok (content names.headI ++
          ((names.drop 1).map (fun f => (content f).drop 1)).flatten) ∧
      (content names.headI ++
        ((names.drop 1).map (fun f => (content f).drop 1)).flatten).count
          hdr = 1 := by
  have hall : ∀ f ∈ files.filter maskAll, (chunkIdOf f).isSome = true := by
    rw [filter_maskAll]; exact h2
  have hperm : (List.insertionSort idLe (files.filter maskAll)).Perm
      files := by
    have hp := List.perm_insertionSort idLe (files.filter maskAll)
    have hq : (files.filter maskAll).Perm files := by
      rw [filter_maskAll]
    exact hp.trans hq
  have hne : List.insertionSort idLe (files.filter maskAll) ≠ [] := by
    intro hnil
    have hlen := hperm.length_eq
    rw [hnil] at hlen
    exact h1 (List.length_eq_zero.mp hlen.symm)
  have hmemfiles : ∀ f ∈ List.insertionSort idLe (files.filter maskAll),
      f ∈ files := fun f hf => hperm.mem_iff.mp hf
  refine ⟨List.insertionSort idLe (files.filter maskAll), ?_, hperm,
    List.sorted_insertionSort idLe (files.filter maskAll), hne, ?_, ?_⟩
  · rw [get_sorted_chunk_names, if_pos (List.all_eq_true.mpr hall)]
  · cases hn : List.insertionSort idLe (files.filter maskAll) with
    | nil => exact absurd hn hne
    | cons n0 rest =>
      have htails : ∀ t ∈ rest.map content, t ≠ [] := by
        intro t ht htnil
        rcases List.mem_map.mp ht with ⟨f, hf, hft⟩
        have hff : f ∈ files :=
          hmemfiles f (hn ▸ List.mem_cons_of_mem n0 hf)
        have h5 := h3 f hff
        rw [hft, htnil] at h5
        cases h5
      rw [List.map_cons, concatenate_tabularized_chunks,
        concatTails_ok (rest.map content) htails]
      have hmaps : ((rest.map content).map List.tail) =
          rest.map (fun f => (content f).drop 1) := by
        rw [List.map_map]
        exact List.map_congr_left (fun f _ => (List.drop_one _).symm ▸ rfl)
      rw [hmaps]
      rfl
  · cases hn : List.insertionSort idLe (files.filter maskAll) with
    | nil => exact absurd hn hne
    | cons n0 rest =>
      have hn0 : n0 ∈ files := hmemfiles n0 (hn ▸ List.mem_cons_self n0 rest)
      simp only [List.headI, List.drop_succ_cons, List.drop_zero]
      cases hc : content n0 with
      | nil =>
        have h5 := h3 n0 hn0
        rw [hc] at h5
        cases h5
      | cons a t =>
        have ha : a = hdr := by
          have h5 := h3 n0 hn0
          rw [hc] at h5
          injection h5
        rw [ha]
        have hcount0 : (t ++ (rest.map
            (fun f => (content f).drop 1)).flatten).count hdr = 0 := by
          rw [List.count_eq_zero]
          intro hmem
          rcases List.mem_append.mp hmem with hm | hm
          · have h5 := h4 n0 hn0
            rw [hc] at h5
            simp only [List.drop_succ_cons, List.drop_zero] at h5
            exact h5 hm
          · rcases List.mem_flatten.mp hm with ⟨piece, hpiece, hmem2⟩
            rcases List.mem_map.mp hpiece with ⟨f, hf, hfp⟩
            have hff : f ∈ files :=
              hmemfiles f (hn ▸ List.mem_cons_of_mem n0 hf)
            exact h4 f hff (hfp ▸ hmem2)
        rw [List.cons_append, List.count_cons_self, hcount0]

/-- Witness for C3 with two chunk tables sharing the header `h`. -/
theorem c3_merge_single_header_witness :
    ∃ names, get_sorted_chunk_names maskAll ["chunk_2.tsv", "chunk_1.tsv"] =
        Except.ok names ∧
      names.Perm ["chunk_2.tsv", "chunk_1.tsv"] ∧ names.Sorted idLe ∧
      names ≠ [] ∧
      concatenate_tabularized_chunks (names.map tableW) =
        Except.ok (tableW names.headI ++
          ((names.drop 1).map (fun f => (tableW f).drop 1)).flatten) ∧
      (tableW names.headI ++
        ((names.drop 1).map (fun f => (tableW f).drop 1)).flatten).count "h"
        = 1 :=
  c3_merge_single_header ["chunk_2.tsv", "chunk_1.tsv"] tableW "h"
    (by decide) (by decide) (by decide) (by decide)

/-! ### Lemmas: orchestrator and zero-match parsers -/

lemma foldl_setUpdate_empty :
    ∀ (l : List String) (acc : List String),
      (∀ c ∈ l, parseKeysContent c = []) →
      l.foldl (fun s c => setUpdate s (parseKeysContent c)) acc = acc := by
  intro l
  induction l with
  | nil => intro acc _; rfl
  | cons c rest ih =>
    intro acc h
    rw [List.foldl_cons, h c (List.mem_cons_self c rest)]
    exact ih acc (fun c1 hc1 => h c1 (List.mem_cons_of_mem c hc1))

/-- C7 counterexample: on an empty chunk-table list the merge raises
`IndexError` (indexing `chunk_tables_file_paths[0]`) instead of being
skippable. -/
theorem c7_empty_merge_counterexample :
    concatenate_tabularized_chunks [] = Except.error PyErr.indexError := rfl

/-- C7 amended: a zero-match parser causes no error in the pipeline run:
its per-chunk key files are empty, so the Schema Unifier produces an empty
header list for it, and every configured parser receives a records entry
in every chunk (hence one rendered table per chunk, so the merge never
sees an empty list); `_concatenate_tabularized_chunks` itself, however,
raises an `IndexError` when the chunk-table list is empty, rather than
skipping. -/
theorem c7_zero_match_parser_tolerated :
    (∀ n : Nat, get_final_table_headers (List.replicate n "") = []) ∧
    (∀ (parsers : List LogParser) (lines : List String),
      ((parse_file_chunk parsers lines).records).map Prod.fst =
        (pyDict parsers).map LogParser.short_name) ∧
    concatenate_tabularized_chunks [] = Except.error PyErr.indexError := by
  refine ⟨?_, ?_, rfl⟩
  · intro n
    have h : uniqueKeysOf (List.replicate n "") = [] := by
      rw [uniqueKeysOf]
      exact foldl_setUpdate_empty (List.replicate n "") []
        (fun c hc => by rw [List.eq_of_mem_replicate hc]; rfl)
    rw [get_final_table_headers, h]
    rfl
  · intro parsers lines
    rw [parse_file_chunk, foldl_processLine_records_fst]
    simp [initChunkState, List.map_map, Function.comp]

/-- C8: evaluating `_create_temp_directory` at the failing input: the
directory exists and `exist_ok` is false, yet the call returns normally
(the `FileExistsError` is constructed but never raised) and creates
nothing — it does not signal the exception the spec intends. -/
theorem c8_create_temp_directory_never_raises :
    create_temp_directory true false = ⟨none, false⟩ := rfl

/-- C9 counterexample: the source exists, no explicit output directory is
passed, and the derived (timestamped default) output directory already
exists: `parse_file` returns normally with a logged failed-run outcome
instead of raising the precondition fault to the caller. -/
theorem c9_derived_dir_counterexample :
    parse_file ⟨true, true, none⟩ ⟨Except.ok (), []⟩ =
      ⟨Except.ok (RunOutcome.failedLogged PyErr.fileExistsError), [], 1⟩ :=
  rfl

/-- C9 amended: a missing source file, or an explicitly passed output
directory that already exists, raises an `AssertionError` to the caller
before any directory is created; a pre-existing derived default output
directory instead raises `FileExistsError` inside the pipeline (still
before any directory is created), which `parse_file` catches and logs, so
no fault reaches the caller in that case. -/
theorem c9_precondition_faults :
    (∀ (d : Bool) (e : Option Bool) (r : MainResult),
      parse_file ⟨false, d, e⟩ r =
        ⟨Except.error PyErr.assertionError, [], 0⟩) ∧
    (∀ (d : Bool) (r : MainResult),
      parse_file ⟨true, d, some true⟩ r =
        ⟨Except.error PyErr.assertionError, [], 0⟩) ∧
    (∀ r : MainResult,
      parse_file ⟨true, true, none⟩ r =
        ⟨Except.ok (RunOutcome.failedLogged PyErr.fileExistsError),
          [], 1⟩) :=
  ⟨fun _d _e _r => rfl, fun _d _r => rfl, fun _r => rfl⟩

/-- C6: when the preconditions hold (source exists; an explicit output
directory, if given, does not exist), `parse_file` never propagates an
exception: the call returns normally, and an exception escaping
`_parse_file_main` is caught exactly once, logged critical exactly once,
and converted into a failed-run outcome. -/
theorem c6_parse_file_contains_faults (w : World) (rest : MainResult)
    (h1 : w.srcExists = true) (h2 : w.explicitOutDir ≠ some true) :
    (∃ o, (parse_file w rest).out = Except.ok o) ∧
    ((parse_file w rest).out = Except.ok RunOutcome.completed ∨
      ∃ e, (parse_file_main w rest).out = Except.error e ∧
        parse_file w rest =
          ⟨Except.ok (RunOutcome.failedLogged e),
            (parse_file_main w rest).created, 1⟩) := by
  obtain ⟨s, d, eo⟩ := w
  simp only at h1
  subst h1
  cases eo with
  | some b =>
    cases b with
    | true => exact absurd rfl h2
    | false =>
      cases hm : (parse_file_main ⟨true, d, some false⟩ rest).out with
      | error e =>
        refine ⟨⟨RunOutcome.failedLogged e, ?_⟩, Or.inr ⟨e, rfl, ?_⟩⟩ <;>
          simp [parse_file, hm]
      | ok u =>
        refine ⟨⟨RunOutcome.completed, ?_⟩, Or.inl ?_⟩ <;>
          simp [parse_file, hm]
  | none =>
    cases hm : (parse_file_main ⟨true, d, none⟩ rest).out with
    | error e =>
      refine ⟨⟨RunOutcome.failedLogged e, ?_⟩, Or.inr ⟨e, rfl, ?_⟩⟩ <;>
        simp [parse_file, hm]
    | ok u =>
      refine ⟨⟨RunOutcome.completed, ?_⟩, Or.inl ?_⟩ <;>
        simp [parse_file, hm]

/-- Witness for C6: the pipeline remainder raises, `parse_file` contains
it. -/
theorem c6_parse_file_contains_faults_witness :
    (∃ o, (parse_file ⟨true, false, none⟩
      ⟨Except.error PyErr.otherError, []⟩).out = Except.ok o) ∧
    ((parse_file ⟨true, false, none⟩
        ⟨Except.error PyErr.otherError, []⟩).out =
      Except.ok RunOutcome.completed ∨
      ∃ e, (parse_file_main ⟨true, false, none⟩
          ⟨Except.error PyErr.otherError, []⟩).out = Except.error e ∧
        parse_file ⟨true, false, none⟩ ⟨Except.error PyErr.otherError, []⟩ =
          ⟨Except.ok (RunOutcome.failedLogged e),
            (parse_file_main ⟨true, false, none⟩
              ⟨Except.error PyErr.otherError, []⟩).created, 1⟩) :=
  c6_parse_file_contains_faults ⟨true, false, none⟩
    ⟨Except.error PyErr.otherError, []⟩ rfl (by decide)
